import Mathlib

/-!
Shallow embedding of the B+Tree leaf-page subsystem (`src/btree/leaf.rs`) of a
disk-resident key-value store.  The collaborators the leaf delegates to
(`Pair` record encoding, `PageId` sentinel codec, the `Slotted` body
allocator, the generic `binary_search_by`, and the `max_pair_size` bound) are
not part of the given source fraction, so they are modelled from the
specification of their interface contracts; each such definition is marked
`Modelled from the spec:` in its doc comment.
-/

namespace RdbmsLeaf

/-- A byte is modelled as a natural number; keys and values are byte lists. -/
abbrev Bytes := List Nat

/-- Lexicographic comparison of byte sequences, mirroring Rust
`<[u8] as Ord>::cmp` used by `self.pair_at(slot_id).key.cmp(&key)`. -/
def cmpBytes : Bytes → Bytes → Ordering
  | [], [] => .eq
  | [], _ :: _ => .lt
  | _ :: _, [] => .gt
  | x :: xs, y :: ys =>
    if x < y then .lt else if y < x then .gt else cmpBytes xs ys

/-- Little-endian encoding of `n` into `w` bytes. -/
def encodeLE : Nat → Nat → Bytes
  | 0, _ => []
  | w + 1, n => n % 256 :: encodeLE w (n / 256)

/-- Little-endian decoding of a byte list. -/
def decodeLE : Bytes → Nat
  | [] => 0
  | b :: bs => b + 256 * decodeLE bs

/-- A key/value pair, `btree::Pair`. -/
structure Pair where
  key : Bytes
  value : Bytes
  deriving DecidableEq

/-- Modelled from the spec: `Pair` serialization (the `Pair` source file is
not in the source fraction).  The pair is one variable-length record with
embedded length information sufficient for exact round-trip decoding: an
8-byte (`u64`-width, matching Rust `usize`) little-endian key length, the key
bytes, then the value bytes; the value length is implied by the total record
length stored by the slotted page. -/
def Pair.to_bytes (p : Pair) : Bytes :=
  encodeLE 8 p.key.length ++ p.key ++ p.value

/-- Modelled from the spec: inverse of `Pair.to_bytes`. -/
def Pair.from_bytes (bytes : Bytes) : Pair :=
  let klen := decodeLE (bytes.take 8)
  let rest := bytes.drop 8
  { key := rest.take klen, value := rest.drop klen }

/-- Modelled from the spec: the page identifier is a fixed-width (64-bit)
non-negative integer with one reserved sentinel bit pattern meaning
"no page" (`PageId::INVALID_PAGE_ID`). -/
def INVALID_PAGE_ID : Nat := 2 ^ 64 - 1

/-- Modelled from the spec: `PageId::valid`, decoding a stored identifier to
an optional one; the sentinel decodes to `none`, every other bit pattern to
`some`. -/
def PageId.valid (raw : Nat) : Option Nat :=
  if raw = INVALID_PAGE_ID then none else some raw

/-- Modelled from the spec: `impl From<Option<PageId>> for PageId`; `None`
encodes to exactly the sentinel. -/
def PageId.ofOption : Option Nat → Nat
  | none => INVALID_PAGE_ID
  | some x => x

/-- Modelled from the spec: each slot costs one fixed-size slot-directory
entry (a pointer) in addition to its record bytes. -/
def POINTER_SIZE : Nat := 4

/-- Modelled from the spec: the slotted page managing free space and the slot
directory inside the leaf body region.  `capacity` is the byte budget of the
body; `slots` holds each slot's record bytes in logical slot order. -/
structure Slotted where
  capacity : Nat
  slots : List Bytes
  deriving DecidableEq

/-- `Slotted::num_slots`. -/
def Slotted.num_slots (s : Slotted) : Nat := s.slots.length

/-- Bytes consumed by the current records and their directory entries. -/
def Slotted.usedSpace (s : Slotted) : Nat :=
  (s.slots.map (fun r => r.length + POINTER_SIZE)).sum

/-- Modelled from the spec: `Slotted::initialize` resets to zero slots. -/
def Slotted.initialize (s : Slotted) : Slotted :=
  { s with slots := [] }

/-- Modelled from the spec: `Slotted::insert(slot_id, len)` reserves a new
slot of `len` record bytes at logical position `slot_id`, shifting subsequent
slot indices up by one, and returns `none` when free space is insufficient
(leaving the page unchanged). -/
def Slotted.insert (s : Slotted) (slot_id len : Nat) : Option Slotted :=
  if s.usedSpace + (len + POINTER_SIZE) ≤ s.capacity then
    some { s with slots := s.slots.insertIdx slot_id (List.replicate len 0) }
  else none

/-- Writing `bytes` over slot `slot_id`, the Rust
`self.body[slot_id].copy_from_slice(&pair_bytes)`. -/
def Slotted.setSlot (s : Slotted) (slot_id : Nat) (bytes : Bytes) : Slotted :=
  { s with slots := s.slots.set slot_id bytes }

/-- The byte range of slot `slot_id`, the Rust `&self.body[slot_id]`. -/
def Slotted.slotAt (s : Slotted) (slot_id : Nat) : Bytes :=
  s.slots.getD slot_id []

/-- The leaf view: a fixed header of two sentinel-encoded page identifiers
(`prev_page_id`, `next_page_id`) followed by the slotted body. -/
structure Leaf where
  prevRaw : Nat
  nextRaw : Nat
  body : Slotted
  deriving DecidableEq

/-- `Leaf::prev_page_id`. -/
def Leaf.prev_page_id (l : Leaf) : Option Nat := PageId.valid l.prevRaw

/-- `Leaf::next_page_id`. -/
def Leaf.next_page_id (l : Leaf) : Option Nat := PageId.valid l.nextRaw

/-- `Leaf::num_pairs`, delegated to the body's slot count. -/
def Leaf.num_pairs (l : Leaf) : Nat := Slotted.num_slots l.body

/-- `Leaf::pair_at`, decoding the record stored at `slot_id`. -/
def Leaf.pair_at (l : Leaf) (slot_id : Nat) : Pair :=
  Pair.from_bytes (Slotted.slotAt l.body slot_id)

/-- Modelled from the spec: `Leaf::max_pair_size`, the absolute maximum
representable encoded pair size, a function of the body capacity minus
slot-directory overhead (the method is called by `insert` but its body is not
in the source fraction). -/
def Leaf.max_pair_size (l : Leaf) : Nat := l.body.capacity - POINTER_SIZE

/-- `Leaf::initialize`: write the sentinel into both header links and reset
the body to zero slots. -/
def Leaf.initialize (l : Leaf) : Leaf :=
  { l with
    prevRaw := INVALID_PAGE_ID
    nextRaw := INVALID_PAGE_ID
    body := Slotted.initialize l.body }

/-- `Leaf::set_prev_page_id`. -/
def Leaf.set_prev_page_id (l : Leaf) (id : Option Nat) : Leaf :=
  { l with prevRaw := PageId.ofOption id }

/-- `Leaf::st_next_page_id` (the setter of the next link, keeping the
source's spelling). -/
def Leaf.st_next_page_id (l : Leaf) (id : Option Nat) : Leaf :=
  { l with nextRaw := PageId.ofOption id }

/-- Result of `Leaf::insert`: success (`Some(())` with the mutated leaf),
the recoverable out-of-space failure (`None`), or the fatal `assert!` on an
oversized pair. -/
inductive InsertResult where
  | ok (l : Leaf)
  | full
  | assertViolation
  deriving DecidableEq

/-- `Leaf::insert(slot_id, key, value)`: encode the pair, assert its size is
at most `max_pair_size`, ask the body for a slot of that length at
`slot_id`, then copy the encoded bytes in. -/
def Leaf.insert (l : Leaf) (slot_id : Nat) (key value : Bytes) : InsertResult :=
  let pair_bytes := Pair.to_bytes { key := key, value := value }
  if pair_bytes.length ≤ l.max_pair_size then
    match l.body.insert slot_id pair_bytes.length with
    | some body1 => .ok { l with body := body1.setSlot slot_id pair_bytes }
    | none => .full
  else .assertViolation

/-- Modelled from the spec: the generic ordered-comparator search
(`bsearch::binary_search_by`; its source file is not in the source
fraction).  Given a count and a per-index comparison it returns
`Except.ok i` on an exact match and `Except.error j` with the
sort-preserving insertion point otherwise — the standard binary-search
contract, realised here as the first index whose comparison is not `lt`. -/
def bsearchGo (f : Nat → Ordering) : Nat → Nat → Except Nat Nat
  | i, 0 => .error i
  | i, k + 1 =>
    match f i with
    | .lt => bsearchGo f (i + 1) k
    | .eq => .ok i
    | .gt => .error i

/-- Modelled from the spec: entry point of the comparator search. -/
def binary_search_by (n : Nat) (f : Nat → Ordering) : Except Nat Nat :=
  bsearchGo f 0 n

/-- `Leaf::search_slot_id`: binary search over the sorted pairs by key,
decoding each candidate slot's key lazily. -/
def Leaf.search_slot_id (l : Leaf) (key : Bytes) : Except Nat Nat :=
  binary_search_by l.num_pairs (fun slot_id => cmpBytes (l.pair_at slot_id).key key)

/-- The decoded keys of a leaf, in slot order. -/
def Leaf.keys (l : Leaf) : List Bytes :=
  l.body.slots.map (fun r => (Pair.from_bytes r).key)

/-- Strict byte-lexicographic sortedness of the decoded keys. -/
def Leaf.sortedKeys (l : Leaf) : Prop :=
  List.Pairwise (fun a b => cmpBytes a b = .lt) (Leaf.keys l)

instance (l : Leaf) : Decidable (Leaf.sortedKeys l) :=
  List.instDecidablePairwise (Leaf.keys l)

/-- A small leaf holding one pair over a nearly full 20-byte body, used to
exercise the capacity-failure path on a concrete input. -/
def tinyLeaf : Leaf :=
  { prevRaw := 0, nextRaw := 0,
    body := { capacity := 20, slots := [Pair.to_bytes ⟨[9], [8]⟩] } }

/-- Reference linear scan over a list of keys: walk the keys in slot order
and stop at the first one not below the target, yielding `ok` on an exact
match and the insertion point otherwise. -/
def linearScanGo (key : Bytes) : Nat → List Bytes → Except Nat Nat
  | i, [] => .error i
  | i, k :: ks =>
    match cmpBytes k key with
    | .lt => linearScanGo key (i + 1) ks
    | .eq => .ok i
    | .gt => .error i

/-- What a linear scan over all current pairs computes (the reference
semantics the spec compares `search_slot_id` against). -/
def linearScan (keys : List Bytes) (key : Bytes) : Except Nat Nat :=
  linearScanGo key 0 keys

/-- One step of the caller protocol: look up the key with `search_slot_id`
and, when the key is absent, insert at the returned insertion point; a key
already present or a failed insert leaves the leaf unchanged. -/
def insertStep (l : Leaf) (kv : Bytes × Bytes) : Leaf :=
  match Leaf.search_slot_id l kv.1 with
  | .error j =>
    match Leaf.insert l j kv.1 kv.2 with
    | .ok l1 => l1
    | _ => l
  | .ok _ => l

/-- The leaf "after a possibly failing insert": the mutated leaf on success
and the untouched one otherwise (a pure rendering of the in-place buffer the
Rust caller still holds after `insert` returns). -/
def Leaf.afterInsert (l : Leaf) (slot_id : Nat) (key value : Bytes) : Leaf :=
  match Leaf.insert l slot_id key value with
  | .ok l1 => l1
  | _ => l

/-- A fresh page for the concrete scenario of claim C8: an initialized empty
leaf over a body of 128 bytes. -/
def scenarioLeaf0 : Leaf :=
  Leaf.initialize { prevRaw := 0, nextRaw := 0, body := { capacity := 128, slots := [] } }

/-- The scenario leaf after inserting ("a","1"), ("c","3"), ("b","2") in that
arrival order, each at its insertion point (byte values of the ASCII
characters). -/
def scenarioLeaf : Leaf :=
  List.foldl insertStep scenarioLeaf0 [([97], [49]), ([99], [51]), ([98], [50])]

/-! Helper lemmas about byte comparison. -/

/-- `cmpBytes` returns `eq` exactly on equal byte lists. -/
theorem cmpBytes_eq_iff : ∀ a b : Bytes, cmpBytes a b = .eq ↔ a = b
  | [], [] => by simp [cmpBytes]
  | [], _ :: _ => by simp [cmpBytes]
  | _ :: _, [] => by simp [cmpBytes]
  | x :: xs, y :: ys => by
    rcases Nat.lt_trichotomy x y with h | h | h
    · rw [cmpBytes, if_pos h]
      constructor
      · intro hc
        exact Ordering.noConfusion hc
      · rintro ⟨rfl, -⟩
        exact absurd h (Nat.lt_irrefl x)
    · subst h
      rw [cmpBytes, if_neg (Nat.lt_irrefl x), if_neg (Nat.lt_irrefl x)]
      simp only [List.cons.injEq, true_and]
      exact cmpBytes_eq_iff xs ys
    · rw [cmpBytes, if_neg (Nat.lt_asymm h), if_pos h]
      constructor
      · intro hc
        exact Ordering.noConfusion hc
      · rintro ⟨rfl, -⟩
        exact absurd h (Nat.lt_irrefl x)

/-- `cmpBytes` agrees with the lexicographic strict order on lists. -/
theorem cmpBytes_lt_iff_lex : ∀ a b : Bytes, cmpBytes a b = .lt ↔ List.Lex (· < ·) a b
  | [], [] => by
    constructor
    · intro hc
      exact Ordering.noConfusion hc
    · intro h
      exact absurd h (List.Lex.not_nil_right _ _)
  | [], y :: ys => by
    constructor
    · intro _
      exact List.Lex.nil
    · intro _
      rfl
  | x :: xs, [] => by
    constructor
    · intro hc
      exact Ordering.noConfusion hc
    · intro h
      exact absurd h (List.Lex.not_nil_right _ _)
  | x :: xs, y :: ys => by
    rcases Nat.lt_trichotomy x y with h | h | h
    · rw [cmpBytes, if_pos h]
      constructor
      · intro _
        exact List.Lex.rel h
      · intro _
        rfl
    · subst h
      rw [cmpBytes, if_neg (Nat.lt_irrefl x), if_neg (Nat.lt_irrefl x)]
      rw [cmpBytes_lt_iff_lex xs ys]
      constructor
      · intro hl
        exact List.Lex.cons hl
      · intro hl
        cases hl with
        | cons htail => exact htail
        | rel hr => exact absurd hr (Nat.lt_irrefl x)
    · rw [cmpBytes, if_neg (Nat.lt_asymm h), if_pos h]
      constructor
      · intro hc
        exact Ordering.noConfusion hc
      · intro hl
        cases hl with
        | cons htail => exact absurd h (Nat.lt_irrefl x)
        | rel hr => exact absurd hr (Nat.lt_asymm h)

/-- Strict byte order is transitive. -/
theorem cmpBytes_lt_trans {a b c : Bytes} (h1 : cmpBytes a b = .lt)
    (h2 : cmpBytes b c = .lt) : cmpBytes a c = .lt := by
  rw [cmpBytes_lt_iff_lex] at h1 h2 ⊢
  exact trans_of (List.Lex (· < ·)) h1 h2

/-- `gt` is the mirror image of `lt`. -/
theorem cmpBytes_gt_iff : ∀ a b : Bytes, cmpBytes a b = .gt ↔ cmpBytes b a = .lt
  | [], [] => by simp [cmpBytes]
  | [], _ :: _ => by simp [cmpBytes]
  | _ :: _, [] => by simp [cmpBytes]
  | x :: xs, y :: ys => by
    rcases Nat.lt_trichotomy x y with h | h | h
    · rw [cmpBytes, if_pos h, cmpBytes, if_neg (Nat.lt_asymm h), if_pos h]
      constructor
      · intro hc
        exact Ordering.noConfusion hc
      · intro hc
        exact Ordering.noConfusion hc
    · subst h
      rw [cmpBytes, if_neg (Nat.lt_irrefl x), if_neg (Nat.lt_irrefl x)]
      rw [cmpBytes, if_neg (Nat.lt_irrefl x), if_neg (Nat.lt_irrefl x)]
      exact cmpBytes_gt_iff xs ys
    · rw [cmpBytes, if_neg (Nat.lt_asymm h), if_pos h, cmpBytes, if_pos h]
      constructor
      · intro _
        rfl
      · intro _
        rfl

/-! Helper lemmas about the length-prefix codec and pair round trip. -/

theorem encodeLE_length : ∀ (w n : Nat), (encodeLE w n).length = w
  | 0, _ => rfl
  | w + 1, n => by
    rw [encodeLE, List.length_cons, encodeLE_length w]

theorem decodeLE_encodeLE : ∀ (w n : Nat), n < 256 ^ w → decodeLE (encodeLE w n) = n
  | 0, n, h => by
    rw [pow_zero] at h
    rw [encodeLE, decodeLE]
    omega
  | w + 1, n, h => by
    have hd : n / 256 < 256 ^ w := by
      rw [Nat.div_lt_iff_lt_mul (by norm_num : 0 < 256)]
      calc n < 256 ^ (w + 1) := h
        _ = 256 ^ w * 256 := by rw [pow_succ]
    rw [encodeLE, decodeLE, decodeLE_encodeLE w (n / 256) hd]
    omega

/-- Exact round trip of the pair record encoding (the key length fits the
fixed-width prefix; in Rust it is a `usize` and hence below `2 ^ 64`). -/
theorem Pair.from_to_bytes : ∀ (p : Pair), p.key.length < 2 ^ 64 →
    Pair.from_bytes (Pair.to_bytes p) = p
  | ⟨key, value⟩, hk => by
    have h256 : key.length < 256 ^ 8 := by
      have he : (256 : Nat) ^ 8 = 2 ^ 64 := by norm_num
      rw [he]
      exact hk
    have hlen : (encodeLE 8 key.length).length = 8 := encodeLE_length 8 _
    rw [Pair.to_bytes]
    rw [Pair.from_bytes]
    simp only []
    rw [List.append_assoc, List.take_left' hlen, List.drop_left' hlen]
    rw [decodeLE_encodeLE 8 key.length h256]
    rw [List.take_left, List.drop_left]

/-! Helper lemmas about list surgery used by the slotted body. -/

theorem getD_insertIdx_lt {α : Type} :
    ∀ (l : List α) (j x d i), i < j → (l.insertIdx j x).getD i d = l.getD i d
  | _, 0, _, _, i, h => absurd h (Nat.not_lt_zero i)
  | [], j + 1, x, d, i, _ => by rw [List.insertIdx_succ_nil]
  | a :: as, j + 1, x, d, 0, _ => by rw [List.insertIdx_succ_cons, List.getD_cons_zero, List.getD_cons_zero]
  | a :: as, j + 1, x, d, i + 1, h => by
    rw [List.insertIdx_succ_cons, List.getD_cons_succ, List.getD_cons_succ]
    exact getD_insertIdx_lt as j x d i (Nat.lt_of_succ_lt_succ h)

theorem getD_insertIdx_self {α : Type} :
    ∀ (l : List α) (j : Nat) (x d : α), j ≤ l.length → (l.insertIdx j x).getD j d = x
  | l, 0, x, d, _ => by rw [List.insertIdx_zero, List.getD_cons_zero]
  | [], j + 1, x, d, h => absurd h (by simp)
  | a :: as, j + 1, x, d, h => by
    rw [List.insertIdx_succ_cons, List.getD_cons_succ]
    exact getD_insertIdx_self as j x d (Nat.le_of_succ_le_succ h)

theorem getD_insertIdx_succ {α : Type} :
    ∀ (l : List α) (j : Nat) (x d : α) (i : Nat), j ≤ i →
      (l.insertIdx j x).getD (i + 1) d = l.getD i d
  | l, 0, x, d, i, _ => by rw [List.insertIdx_zero, List.getD_cons_succ]
  | [], j + 1, x, d, i, _ => by rw [List.insertIdx_succ_nil, List.getD_nil, List.getD_nil]
  | a :: as, j + 1, x, d, 0, h => absurd h (by omega)
  | a :: as, j + 1, x, d, i + 1, h => by
    rw [List.insertIdx_succ_cons, List.getD_cons_succ, List.getD_cons_succ]
    exact getD_insertIdx_succ as j x d i (Nat.le_of_succ_le_succ h)

theorem set_insertIdx {α : Type} :
    ∀ (l : List α) (j : Nat) (x y : α), (l.insertIdx j x).set j y = l.insertIdx j y
  | [], 0, x, y => by rw [List.insertIdx_zero, List.insertIdx_zero, List.set_cons_zero]
  | a :: as, 0, x, y => by rw [List.insertIdx_zero, List.insertIdx_zero, List.set_cons_zero]
  | [], j + 1, x, y => by rw [List.insertIdx_succ_nil, List.insertIdx_succ_nil]; rfl
  | a :: as, j + 1, x, y => by
    rw [List.insertIdx_succ_cons, List.insertIdx_succ_cons, List.set_cons_succ]
    rw [set_insertIdx as j x y]

theorem map_insertIdx {α β : Type} (f : α → β) :
    ∀ (l : List α) (j : Nat) (x : α),
      (l.insertIdx j x).map f = (l.map f).insertIdx j (f x)
  | l, 0, x => by rw [List.insertIdx_zero, List.insertIdx_zero, List.map_cons]
  | [], j + 1, x => by rw [List.insertIdx_succ_nil]; rfl
  | a :: as, j + 1, x => by
    rw [List.insertIdx_succ_cons, List.map_cons, List.map_cons, List.insertIdx_succ_cons]
    rw [map_insertIdx f as j x]

theorem getD_map {α β : Type} (f : α → β) :
    ∀ (l : List α) (i : Nat) (d : β) (d2 : α), i < l.length →
      (l.map f).getD i d = f (l.getD i d2)
  | [], i, d, d2, h => absurd h (by simp)
  | a :: as, 0, d, d2, _ => by rw [List.map_cons, List.getD_cons_zero, List.getD_cons_zero]
  | a :: as, i + 1, d, d2, h => by
    rw [List.map_cons, List.getD_cons_succ, List.getD_cons_succ]
    exact getD_map f as i d d2 (by simpa using h)

theorem mem_getD {α : Type} :
    ∀ {l : List α} {b : α}, b ∈ l → ∀ d, ∃ i, i < l.length ∧ l.getD i d = b
  | a :: as, b, h, d => by
    rcases List.mem_cons.mp h with rfl | h2
    · exact ⟨0, by simp, by rw [List.getD_cons_zero]⟩
    · rcases mem_getD h2 d with ⟨i, hi, hg⟩
      exact ⟨i + 1, by simpa using hi, by rw [List.getD_cons_succ]; exact hg⟩

theorem mem_take_getD {α : Type} :
    ∀ (l : List α) (j : Nat) {b : α}, b ∈ l.take j → ∀ d,
      ∃ i, i < j ∧ i < l.length ∧ l.getD i d = b
  | [], j, b, h, d => absurd h (by simp)
  | a :: as, 0, b, h, d => absurd h (by simp)
  | a :: as, j + 1, b, h, d => by
    rw [List.take_succ_cons] at h
    rcases List.mem_cons.mp h with rfl | h2
    · exact ⟨0, by omega, by simp, by rw [List.getD_cons_zero]⟩
    · rcases mem_take_getD as j h2 d with ⟨i, hij, hil, hg⟩
      exact ⟨i + 1, by omega, by simpa using hil, by rw [List.getD_cons_succ]; exact hg⟩

theorem mem_drop_getD {α : Type} :
    ∀ (l : List α) (j : Nat) {b : α}, b ∈ l.drop j → ∀ d,
      ∃ i, j ≤ i ∧ i < l.length ∧ l.getD i d = b
  | l, 0, b, h, d => by
    rw [List.drop_zero] at h
    rcases mem_getD h d with ⟨i, hi, hg⟩
    exact ⟨i, Nat.zero_le i, hi, hg⟩
  | [], j + 1, b, h, d => absurd h (by simp)
  | a :: as, j + 1, b, h, d => by
    rw [List.drop_succ_cons] at h
    rcases mem_drop_getD as j h d with ⟨i, hij, hil, hg⟩
    exact ⟨i + 1, by omega, by simpa using hil, by rw [List.getD_cons_succ]; exact hg⟩

theorem pairwise_getD {α : Type} {R : α → α → Prop} {l : List α} (h : l.Pairwise R)
    (i j : Nat) (d : α) (hij : i < j) (hj : j < l.length) :
    R (l.getD i d) (l.getD j d) := by
  have hi : i < l.length := Nat.lt_trans hij hj
  rw [List.getD_eq_getElem l d hi, List.getD_eq_getElem l d hj]
  have := List.pairwise_iff_get.mp h ⟨i, hi⟩ ⟨j, hj⟩ hij
  simpa [List.get_eq_getElem] using this

theorem pairwise_insertIdx {α : Type} {R : α → α → Prop} :
    ∀ (l : List α) (j : Nat) (a : α), j ≤ l.length → l.Pairwise R →
      (∀ b ∈ l.take j, R b a) → (∀ b ∈ l.drop j, R a b) →
      (l.insertIdx j a).Pairwise R
  | l, 0, a, _, hp, _, h2 => by
    rw [List.insertIdx_zero]
    exact List.Pairwise.cons (fun b hb => h2 b (by simpa using hb)) hp
  | [], j + 1, a, h, _, _, _ => absurd h (by simp)
  | x :: xs, j + 1, a, h, hp, h1, h2 => by
    rw [List.insertIdx_succ_cons]
    rcases List.pairwise_cons.mp hp with ⟨hx, hxs⟩
    have hlen : j ≤ xs.length := by simpa using h
    refine List.Pairwise.cons ?_ (pairwise_insertIdx xs j a hlen hxs ?_ ?_)
    · intro b hb
      rcases (List.mem_insertIdx hlen).mp hb with rfl | hb2
      · exact h1 x (by rw [List.take_succ_cons]; exact List.mem_cons_self x _)
      · exact hx b hb2
    · intro b hb
      exact h1 b (by rw [List.take_succ_cons]; exact List.mem_cons_of_mem x hb)
    · intro b hb
      exact h2 b (by rwa [List.drop_succ_cons])

/-! Specification lemmas for the comparator search. -/

theorem bsearchGo_ok {f : Nat → Ordering} :
    ∀ (k i r : Nat), bsearchGo f i k = .ok r →
      i ≤ r ∧ r < i + k ∧ f r = .eq ∧ ∀ t, i ≤ t → t < r → f t = .lt
  | 0, i, r, h => by rw [bsearchGo] at h; exact Except.noConfusion h
  | k + 1, i, r, h => by
    rw [bsearchGo] at h
    cases hf : f i with
    | lt =>
      rw [hf] at h
      rcases bsearchGo_ok k (i + 1) r h with ⟨h1, h2, h3, h4⟩
      refine ⟨by omega, by omega, h3, ?_⟩
      intro t ht1 ht2
      rcases Nat.eq_or_lt_of_le ht1 with rfl | ht3
      · exact hf
      · exact h4 t ht3 ht2
    | eq =>
      rw [hf] at h
      cases h
      exact ⟨Nat.le_refl i, by omega, hf, fun t ht1 ht2 => absurd (Nat.lt_of_le_of_lt ht1 ht2) (Nat.lt_irrefl i)⟩
    | gt =>
      rw [hf] at h
      exact Except.noConfusion h

theorem bsearchGo_err {f : Nat → Ordering} :
    ∀ (k i j : Nat), bsearchGo f i k = .error j →
      i ≤ j ∧ j ≤ i + k ∧ (∀ t, i ≤ t → t < j → f t = .lt) ∧ (j < i + k → f j = .gt)
  | 0, i, j, h => by
    rw [bsearchGo] at h
    cases h
    exact ⟨Nat.le_refl i, by omega, fun t ht1 ht2 => absurd (Nat.lt_of_le_of_lt ht1 ht2) (Nat.lt_irrefl i), fun hc => absurd hc (by omega)⟩
  | k + 1, i, j, h => by
    rw [bsearchGo] at h
    cases hf : f i with
    | lt =>
      rw [hf] at h
      rcases bsearchGo_err k (i + 1) j h with ⟨h1, h2, h3, h4⟩
      refine ⟨by omega, by omega, ?_, fun hc => h4 (by omega)⟩
      intro t ht1 ht2
      rcases Nat.eq_or_lt_of_le ht1 with rfl | ht3
      · exact hf
      · exact h3 t ht3 ht2
    | eq =>
      rw [hf] at h
      exact Except.noConfusion h
    | gt =>
      rw [hf] at h
      cases h
      exact ⟨Nat.le_refl i, by omega, fun t ht1 ht2 => absurd (Nat.lt_of_le_of_lt ht1 ht2) (Nat.lt_irrefl i), fun _ => hf⟩

/-! Bridge lemmas between the leaf view and its body. -/

theorem keys_length (l : Leaf) : ( Leaf.keys l).length = l.num_pairs := by
  rw [Leaf.keys, List.length_map]
  rfl

theorem keys_getD (l : Leaf) (i : Nat) (h : i < l.num_pairs) :
    ( Leaf.keys l).getD i [] = (l.pair_at i).key := by
  rw [Leaf.keys, Leaf.pair_at, Slotted.slotAt]
  exact getD_map _ l.body.slots i [] [] h

theorem sortedKeys_pair_at {l : Leaf} (hs : Leaf.sortedKeys l) {i j : Nat}
    (hij : i < j) (hj : j < l.num_pairs) :
    cmpBytes (l.pair_at i).key (l.pair_at j).key = .lt := by
  have h := pairwise_getD hs i j [] hij (by rwa [keys_length])
  rwa [keys_getD l i (Nat.lt_trans hij hj), keys_getD l j hj] at h

/-- Anatomy of a successful insert: the size assertion held, the body had
room, the header is untouched, and the slot list gained the encoded pair at
`slot_id`. -/
theorem insert_ok_body {l : Leaf} {slot_id : Nat} {key value : Bytes} {l1 : Leaf}
    (h : l.insert slot_id key value = .ok l1) :
    (Pair.to_bytes ⟨key, value⟩).length ≤ l.max_pair_size ∧
    l.body.usedSpace + ((Pair.to_bytes ⟨key, value⟩).length + POINTER_SIZE) ≤ l.body.capacity ∧
    l1.prevRaw = l.prevRaw ∧ l1.nextRaw = l.nextRaw ∧
    l1.body.capacity = l.body.capacity ∧
    l1.body.slots = l.body.slots.insertIdx slot_id (Pair.to_bytes ⟨key, value⟩) := by
  rw [Leaf.insert] at h
  by_cases hsz : (Pair.to_bytes ⟨key, value⟩).length ≤ l.max_pair_size
  · rw [if_pos hsz] at h
    rw [Slotted.insert] at h
    by_cases hsp : l.body.usedSpace + ((Pair.to_bytes ⟨key, value⟩).length + POINTER_SIZE) ≤ l.body.capacity
    · rw [if_pos hsp] at h
      simp only [InsertResult.ok.injEq] at h
      subst h
      refine ⟨hsz, hsp, rfl, rfl, rfl, ?_⟩
      rw [Slotted.setSlot]
      exact set_insertIdx l.body.slots slot_id _ _
    · rw [if_neg hsp] at h
      exact absurd h (by simp)
  · rw [if_neg hsz] at h
    exact absurd h (by simp)

/-- A failed (out-of-space) insert is exactly the `full` outcome. -/
theorem insert_full_iff (l : Leaf) (slot_id : Nat) (key value : Bytes)
    (hsz : (Pair.to_bytes ⟨key, value⟩).length ≤ l.max_pair_size) :
    l.insert slot_id key value = .full ↔
      ¬ l.body.usedSpace + ((Pair.to_bytes ⟨key, value⟩).length + POINTER_SIZE) ≤ l.body.capacity := by
  rw [Leaf.insert]
  rw [if_pos hsz]
  rw [Slotted.insert]
  by_cases hsp : l.body.usedSpace + ((Pair.to_bytes ⟨key, value⟩).length + POINTER_SIZE) ≤ l.body.capacity
  · rw [if_pos hsp]
    simp [hsp]
  · rw [if_neg hsp]
    simp [hsp]

/-! Search, characterised through the linear scan. -/

theorem bsearchGo_eq_linearScanGo (key : Bytes) :
    ∀ (ks : List Bytes) (i : Nat) (f : Nat → Ordering),
      (∀ t, t < ks.length → f (i + t) = cmpBytes (ks.getD t []) key) →
      bsearchGo f i ks.length = linearScanGo key i ks
  | [], i, f, _ => by rw [List.length_nil, bsearchGo, linearScanGo]
  | k :: ks, i, f, hf => by
    rw [List.length_cons, bsearchGo, linearScanGo]
    have h0 : f i = cmpBytes k key := by
      have := hf 0 (by simp)
      simpa using this
    rw [h0]
    cases hc : cmpBytes k key with
    | lt =>
      refine bsearchGo_eq_linearScanGo key ks (i + 1) f ?_
      intro t ht
      have h1 := hf (t + 1) (by simpa using Nat.succ_lt_succ ht)
      rw [List.getD_cons_succ] at h1
      have h2 : i + 1 + t = i + (t + 1) := by omega
      rw [h2]
      exact h1
    | eq => rfl
    | gt => rfl

theorem search_eq_linearScan (l : Leaf) (key : Bytes) :
    Leaf.search_slot_id l key = linearScan ( Leaf.keys l) key := by
  rw [Leaf.search_slot_id, binary_search_by, linearScan]
  have hlen : l.num_pairs = ( Leaf.keys l).length := (keys_length l).symm
  rw [hlen]
  refine bsearchGo_eq_linearScanGo key ( Leaf.keys l) 0 _ ?_
  intro t ht
  rw [Nat.zero_add, keys_getD l t (by rwa [keys_length] at ht)]

/-- What a search miss says about the keys around the insertion point. -/
theorem search_err_keys {l : Leaf} {key : Bytes} {j : Nat}
    (h : Leaf.search_slot_id l key = .error j) :
    j ≤ l.num_pairs ∧
    (∀ b ∈ ( Leaf.keys l).take j, cmpBytes b key = .lt) ∧
    (Leaf.sortedKeys l → ∀ b ∈ ( Leaf.keys l).drop j, cmpBytes key b = .lt) := by
  rw [Leaf.search_slot_id, binary_search_by] at h
  rcases bsearchGo_err l.num_pairs 0 j h with ⟨-, hub, hlt, hgt⟩
  rw [Nat.zero_add] at hub hgt
  refine ⟨hub, ?_, ?_⟩
  · intro b hb
    rcases mem_take_getD ( Leaf.keys l) j hb [] with ⟨i, hij, hil, hg⟩
    have hi : i < l.num_pairs := by rwa [keys_length] at hil
    have := hlt i (Nat.zero_le i) hij
    rwa [← keys_getD l i hi, hg] at this
  · intro hs b hb
    rcases mem_drop_getD ( Leaf.keys l) j hb [] with ⟨i, hij, hil, hg⟩
    have hi : i < l.num_pairs := by rwa [keys_length] at hil
    have hj : j < l.num_pairs := Nat.lt_of_le_of_lt hij hi
    have hfj : cmpBytes (l.pair_at j).key key = .gt := hgt hj
    have hkj : cmpBytes key (l.pair_at j).key = .lt := (cmpBytes_gt_iff _ _).mp hfj
    rcases Nat.eq_or_lt_of_le hij with heq | hlt2
    · subst heq
      rwa [← keys_getD l j hi, hg] at hkj
    · have hmono : cmpBytes (l.pair_at j).key (l.pair_at i).key = .lt :=
        sortedKeys_pair_at hs hlt2 hi
      have := cmpBytes_lt_trans hkj hmono
      rwa [← keys_getD l i hi, hg] at this

/-- What a search hit says: the slot holds exactly the searched key. -/
theorem search_ok_keys {l : Leaf} {key : Bytes} {r : Nat}
    (h : Leaf.search_slot_id l key = .ok r) :
    r < l.num_pairs ∧ (l.pair_at r).key = key := by
  rw [Leaf.search_slot_id, binary_search_by] at h
  rcases bsearchGo_ok l.num_pairs 0 r h with ⟨-, hub, heq, -⟩
  rw [Nat.zero_add] at hub
  exact ⟨hub, (cmpBytes_eq_iff _ _).mp heq⟩

/-- The net effect of a successful insert on the decoded key sequence. -/
theorem keys_insert_ok {l : Leaf} {slot_id : Nat} {key value : Bytes} {l1 : Leaf}
    (hk : key.length < 2 ^ 64)
    (h : l.insert slot_id key value = .ok l1) :
    Leaf.keys l1 = ( Leaf.keys l).insertIdx slot_id key := by
  rcases insert_ok_body h with ⟨-, -, -, -, -, hslots⟩
  rw [Leaf.keys, hslots, map_insertIdx]
  rw [Pair.from_to_bytes ⟨key, value⟩ hk]
  rfl

/-- One caller-protocol step preserves strict sortedness of the keys. -/
theorem sortedKeys_insertStep {l : Leaf} (hs : Leaf.sortedKeys l)
    (kv : Bytes × Bytes) (hk : kv.1.length < 2 ^ 64) :
    Leaf.sortedKeys (insertStep l kv) := by
  cases hsearch : Leaf.search_slot_id l kv.1 with
  | ok r =>
    simp only [insertStep, hsearch]
    exact hs
  | error j =>
    cases hins : Leaf.insert l j kv.1 kv.2 with
    | full =>
      simp only [insertStep, hsearch, hins]
      exact hs
    | assertViolation =>
      simp only [insertStep, hsearch, hins]
      exact hs
    | ok l1 =>
      simp only [insertStep, hsearch, hins]
      rcases search_err_keys hsearch with ⟨hub, htake, hdrop⟩
      rw [Leaf.sortedKeys, keys_insert_ok hk hins]
      exact pairwise_insertIdx ( Leaf.keys l) j kv.1 (by rwa [keys_length]) hs htake (hdrop hs)

/-! The claims. -/

/-- C1: for every leaf, every slot index within the valid insertion range,
and every key and value byte sequence (key length bounded by the Rust
`usize` width) whose encoded pair fits — witnessed by `insert` returning
success — `pair_at(slot_id)` decodes to exactly the inserted key bytes and
value bytes. -/
theorem claim_C1 (l : Leaf) (slot_id : Nat) (key value : Bytes) (l1 : Leaf)
    (hslot : slot_id ≤ l.num_pairs) (hk : key.length < 2 ^ 64)
    (h : l.insert slot_id key value = .ok l1) :
    (l1.pair_at slot_id).key = key ∧ (l1.pair_at slot_id).value = value := by
  rcases insert_ok_body h with ⟨-, -, -, -, -, hslots⟩
  have hpair : l1.pair_at slot_id = ⟨key, value⟩ := by
    rw [Leaf.pair_at, Slotted.slotAt, hslots]
    rw [getD_insertIdx_self l.body.slots slot_id _ [] hslot]
    exact Pair.from_to_bytes ⟨key, value⟩ hk
  rw [hpair]
  exact ⟨rfl, rfl⟩

/-- Witness for C1 at a concrete input: inserting ([5], [7]) at slot 0 of
the initialized scenario leaf. -/
theorem claim_C1_witness :
    ((0 : Nat) ≤ scenarioLeaf0.num_pairs ∧ ([5] : Bytes).length < 2 ^ 64 ∧
      Leaf.insert scenarioLeaf0 0 [5] [7] = .ok ( Leaf.afterInsert scenarioLeaf0 0 [5] [7])) ∧
    (( Leaf.afterInsert scenarioLeaf0 0 [5] [7]).pair_at 0).key = [5] ∧
    (( Leaf.afterInsert scenarioLeaf0 0 [5] [7]).pair_at 0).value = [7] :=
  ⟨⟨Nat.zero_le _, by decide, rfl⟩,
    claim_C1 scenarioLeaf0 0 [5] [7] _ (Nat.zero_le _) (by decide) rfl⟩

/-- C10: a successful insert at `slot_id ≤ num_pairs` grows the pair count
by exactly one, keeps every pair below `slot_id` at its index, and shifts
every pair at an index `≥ slot_id` up by one. -/
theorem claim_C10 (l : Leaf) (slot_id : Nat) (key value : Bytes) (l1 : Leaf)
    (hslot : slot_id ≤ l.num_pairs)
    (h : l.insert slot_id key value = .ok l1) :
    l1.num_pairs = l.num_pairs + 1 ∧
    (∀ i, i < slot_id → l1.pair_at i = l.pair_at i) ∧
    (∀ j, slot_id ≤ j → j < l.num_pairs → l1.pair_at (j + 1) = l.pair_at j) := by
  rcases insert_ok_body h with ⟨-, -, -, -, -, hslots⟩
  refine ⟨?_, ?_, ?_⟩
  · rw [Leaf.num_pairs, Slotted.num_slots, hslots]
    exact List.length_insertIdx slot_id l.body.slots hslot
  · intro i hi
    rw [Leaf.pair_at, Leaf.pair_at, Slotted.slotAt, Slotted.slotAt, hslots]
    rw [getD_insertIdx_lt l.body.slots slot_id _ [] i hi]
  · intro j hj1 hj2
    rw [Leaf.pair_at, Leaf.pair_at, Slotted.slotAt, Slotted.slotAt, hslots]
    rw [getD_insertIdx_succ l.body.slots slot_id _ [] j hj1]

/-- Witness for C10 at a concrete input: inserting ([97,97], []) at slot 1
of the three-pair scenario leaf. -/
theorem claim_C10_witness :
    ((1 : Nat) ≤ scenarioLeaf.num_pairs ∧
      Leaf.insert scenarioLeaf 1 [97, 97] [] = .ok ( Leaf.afterInsert scenarioLeaf 1 [97, 97] [])) ∧
    (( Leaf.afterInsert scenarioLeaf 1 [97, 97] []).num_pairs = scenarioLeaf.num_pairs + 1 ∧
      (∀ i, i < 1 → ( Leaf.afterInsert scenarioLeaf 1 [97, 97] []).pair_at i = scenarioLeaf.pair_at i) ∧
      (∀ j, 1 ≤ j → j < scenarioLeaf.num_pairs →
        ( Leaf.afterInsert scenarioLeaf 1 [97, 97] []).pair_at (j + 1) = scenarioLeaf.pair_at j)) :=
  ⟨⟨by decide, rfl⟩, claim_C10 scenarioLeaf 1 [97, 97] [] _ (by decide) rfl⟩

/-- C2: on a leaf whose keys are strictly sorted (the leaf invariant),
`search_slot_id` follows the standard binary-search contract: a hit returns
the index of a slot holding exactly the key, a key held by some slot is
always found, a miss returns the unique sort-preserving insertion point
(all keys before it are below the key, all keys from it on are above), and
in both cases the result equals what a linear scan over all current pairs
computes. -/
theorem claim_C2 (l : Leaf) (key : Bytes) (hs : Leaf.sortedKeys l) :
    (∀ r, Leaf.search_slot_id l key = .ok r →
        r < l.num_pairs ∧ (l.pair_at r).key = key) ∧
    ((∃ i, i < l.num_pairs ∧ (l.pair_at i).key = key) →
        ∃ r, Leaf.search_slot_id l key = .ok r) ∧
    (∀ j, Leaf.search_slot_id l key = .error j →
        j ≤ l.num_pairs ∧
        (∀ i, i < j → cmpBytes (l.pair_at i).key key = .lt) ∧
        (∀ i, j ≤ i → i < l.num_pairs → cmpBytes key (l.pair_at i).key = .lt)) ∧
    Leaf.search_slot_id l key = linearScan ( Leaf.keys l) key := by
  have herr : ∀ j, Leaf.search_slot_id l key = .error j →
      j ≤ l.num_pairs ∧
      (∀ i, i < j → cmpBytes (l.pair_at i).key key = .lt) ∧
      (∀ i, j ≤ i → i < l.num_pairs → cmpBytes key (l.pair_at i).key = .lt) := by
    intro j hj
    rw [Leaf.search_slot_id, binary_search_by] at hj
    rcases bsearchGo_err l.num_pairs 0 j hj with ⟨-, hub, hlt, hgt⟩
    rw [Nat.zero_add] at hub hgt
    refine ⟨hub, fun i hi => hlt i (Nat.zero_le i) hi, ?_⟩
    intro i hji hi
    have hj2 : j < l.num_pairs := Nat.lt_of_le_of_lt hji hi
    have hkj : cmpBytes key (l.pair_at j).key = .lt := (cmpBytes_gt_iff _ _).mp (hgt hj2)
    rcases Nat.eq_or_lt_of_le hji with heq | hlt2
    · subst heq
      exact hkj
    · exact cmpBytes_lt_trans hkj (sortedKeys_pair_at hs hlt2 hi)
  refine ⟨fun r hr => search_ok_keys hr, ?_, herr, search_eq_linearScan l key⟩
  rintro ⟨i, hi, hkey⟩
  cases hres : Leaf.search_slot_id l key with
  | ok r => exact ⟨r, rfl⟩
  | error j =>
    rcases herr j hres with ⟨-, hbelow, habove⟩
    have hrefl : cmpBytes key key = .eq := (cmpBytes_eq_iff key key).mpr rfl
    rcases Nat.lt_or_ge i j with hij | hij
    · have := hbelow i hij
      rw [hkey, hrefl] at this
      exact absurd this (by simp)
    · have := habove i hij hi
      rw [hkey, hrefl] at this
      exact absurd this (by simp)

/-- Witness for C2 at a concrete input: the sorted three-pair scenario leaf
and the key "b". -/
theorem claim_C2_witness :
    Leaf.sortedKeys scenarioLeaf ∧
    Leaf.search_slot_id scenarioLeaf [98] = linearScan ( Leaf.keys scenarioLeaf) [98] :=
  ⟨by decide, (claim_C2 scenarioLeaf [98] (by decide)).2.2.2⟩

/-- The initialized leaf is (vacuously) sorted and a fold of caller-protocol
steps preserves sortedness of the decoded keys. -/
theorem sortedKeys_foldl :
    ∀ (ops : List (Bytes × Bytes)) (l : Leaf), Leaf.sortedKeys l →
      (∀ kv ∈ ops, (kv.1).length < 2 ^ 64) →
      Leaf.sortedKeys (List.foldl insertStep l ops)
  | [], l, hs, _ => hs
  | kv :: ops, l, hs, hk => by
    rw [List.foldl_cons]
    exact sortedKeys_foldl ops _
      (sortedKeys_insertStep hs kv (hk kv (List.mem_cons_self kv ops)))
      (fun kv2 h2 => hk kv2 (List.mem_cons_of_mem kv h2))

/-- C3: strict sortedness is an invariant of the leaf body — starting from
the state after `initialize()`, after any sequence of inserts each performed
at the insertion index returned by `search_slot_id` for its key (keys of
`usize`-bounded length), the decoded keys are strictly increasing across all
slot indices, so the leaf holds no duplicate keys. -/
theorem claim_C3 (l : Leaf) (ops : List (Bytes × Bytes))
    (hk : ∀ kv ∈ ops, (kv.1).length < 2 ^ 64) :
    ∀ i j, i < j → j < Leaf.num_pairs (List.foldl insertStep ( Leaf.initialize l) ops) →
      cmpBytes ((List.foldl insertStep ( Leaf.initialize l) ops).pair_at i).key
        ((List.foldl insertStep ( Leaf.initialize l) ops).pair_at j).key = .lt := by
  have hinit : Leaf.sortedKeys ( Leaf.initialize l) := List.Pairwise.nil
  have hsorted := sortedKeys_foldl ops ( Leaf.initialize l) hinit hk
  intro i j hij hj
  exact sortedKeys_pair_at hsorted hij hj

/-- Witness for C3 at a concrete input: the scenario arrival order
("a","1"), ("c","3"), ("b","2"). -/
theorem claim_C3_witness :
    (∀ kv ∈ ([([97], [49]), ([99], [51]), ([98], [50])] : List (Bytes × Bytes)),
      (kv.1).length < 2 ^ 64) ∧
    (∀ i j, i < j →
      j < Leaf.num_pairs (List.foldl insertStep ( Leaf.initialize scenarioLeaf0)
            [([97], [49]), ([99], [51]), ([98], [50])]) →
      cmpBytes ((List.foldl insertStep ( Leaf.initialize scenarioLeaf0)
            [([97], [49]), ([99], [51]), ([98], [50])]).pair_at i).key
        ((List.foldl insertStep ( Leaf.initialize scenarioLeaf0)
            [([97], [49]), ([99], [51]), ([98], [50])]).pair_at j).key = .lt) :=
  ⟨by decide, claim_C3 scenarioLeaf0 _ (by decide)⟩

/-- C4: when the body lacks sufficient free space for the encoded pair (the
pair itself being representable, so the size assertion is not in play),
`insert` returns the explicit `full` failure — not a fatal error — and the
leaf the caller still holds is entirely unchanged: pair count, every stored
pair, and both header links. -/
theorem claim_C4 (l : Leaf) (slot_id : Nat) (key value : Bytes)
    (hsz : (Pair.to_bytes ⟨key, value⟩).length ≤ l.max_pair_size)
    (hroom : l.body.capacity <
      l.body.usedSpace + ((Pair.to_bytes ⟨key, value⟩).length + POINTER_SIZE)) :
    l.insert slot_id key value = .full ∧
    ( Leaf.afterInsert l slot_id key value).num_pairs = l.num_pairs ∧
    (∀ i, ( Leaf.afterInsert l slot_id key value).pair_at i = l.pair_at i) ∧
    ( Leaf.afterInsert l slot_id key value).prev_page_id = l.prev_page_id ∧
    ( Leaf.afterInsert l slot_id key value).next_page_id = l.next_page_id := by
  have hfull : l.insert slot_id key value = .full :=
    (insert_full_iff l slot_id key value hsz).mpr (by omega)
  have hafter : Leaf.afterInsert l slot_id key value = l := by
    simp only [Leaf.afterInsert, hfull]
  rw [hafter]
  exact ⟨hfull, rfl, fun _ => rfl, rfl, rfl⟩

/-- Witness for C4 at a concrete input: a 20-byte body holding one 10-byte
record has no room for another 10-byte record. -/
theorem claim_C4_witness :
    ((Pair.to_bytes ⟨[1], [2]⟩).length ≤ tinyLeaf.max_pair_size ∧
      tinyLeaf.body.capacity <
        tinyLeaf.body.usedSpace + ((Pair.to_bytes ⟨[1], [2]⟩).length + POINTER_SIZE)) ∧
    Leaf.insert tinyLeaf 0 [1] [2] = .full ∧
    ( Leaf.afterInsert tinyLeaf 0 [1] [2]).num_pairs = tinyLeaf.num_pairs :=
  ⟨⟨by decide, by decide⟩,
    (claim_C4 tinyLeaf 0 [1] [2] (by decide) (by decide)).1,
    (claim_C4 tinyLeaf 0 [1] [2] (by decide) (by decide)).2.1⟩

/-- C5: header-link round trip through the sentinel encoding — setting a
link to `none` stores the sentinel and reads back `none`; setting it to any
non-sentinel identifier reads back exactly that identifier; for both the
prev and the next link. -/
theorem claim_C5 (l : Leaf) (x : Nat) (hx : x ≠ INVALID_PAGE_ID) :
    (l.set_prev_page_id none).prev_page_id = none ∧
    (l.set_prev_page_id (some x)).prev_page_id = some x ∧
    (Leaf.st_next_page_id l none).next_page_id = none ∧
    (Leaf.st_next_page_id l (some x)).next_page_id = some x := by
  refine ⟨?_, ?_, ?_, ?_⟩ <;>
    simp [Leaf.set_prev_page_id, Leaf.st_next_page_id, Leaf.prev_page_id,
      Leaf.next_page_id, PageId.valid, PageId.ofOption, hx]

/-- Witness for C5 at a concrete input: page identifier 3. -/
theorem claim_C5_witness :
    ((3 : Nat) ≠ INVALID_PAGE_ID) ∧
    ((scenarioLeaf0.set_prev_page_id none).prev_page_id = none ∧
      (scenarioLeaf0.set_prev_page_id (some 3)).prev_page_id = some 3 ∧
      (Leaf.st_next_page_id scenarioLeaf0 none).next_page_id = none ∧
      (Leaf.st_next_page_id scenarioLeaf0 (some 3)).next_page_id = some 3) :=
  ⟨by decide, claim_C5 scenarioLeaf0 3 (by decide)⟩

/-- C6: immediately after `initialize()` the leaf is empty and both chain
links are absent, for every leaf buffer. -/
theorem claim_C6 (l : Leaf) :
    ( Leaf.initialize l).num_pairs = 0 ∧
    ( Leaf.initialize l).prev_page_id = none ∧
    ( Leaf.initialize l).next_page_id = none := by
  refine ⟨rfl, ?_, ?_⟩ <;>
    simp [ Leaf.initialize, Leaf.prev_page_id, Leaf.next_page_id, PageId.valid]

/-- C7: `insert` hits its assertion exactly when the encoded pair exceeds
the leaf's maximum representable pair size — a fatal outcome distinct from
the recoverable failure — and under the precondition that the encoded size
is within the maximum, the assertion never fires. -/
theorem claim_C7 (l : Leaf) (slot_id : Nat) (key value : Bytes) :
    (l.insert slot_id key value = .assertViolation ↔
      l.max_pair_size < (Pair.to_bytes ⟨key, value⟩).length) ∧
    ((Pair.to_bytes ⟨key, value⟩).length ≤ l.max_pair_size →
      l.insert slot_id key value ≠ .assertViolation) := by
  by_cases hsz : (Pair.to_bytes ⟨key, value⟩).length ≤ l.max_pair_size
  · have hne : l.insert slot_id key value ≠ .assertViolation := by
      rw [Leaf.insert]
      rw [if_pos hsz]
      cases l.body.insert slot_id (Pair.to_bytes ⟨key, value⟩).length with
      | some b => simp
      | none => simp
    exact ⟨⟨fun h => absurd h hne, fun h => absurd hsz (by omega)⟩, fun _ => hne⟩
  · have heq : l.insert slot_id key value = .assertViolation := by
      rw [Leaf.insert]
      rw [if_neg hsz]
    exact ⟨⟨fun _ => by omega, fun _ => heq⟩, fun hc => absurd hc hsz⟩

/-- Witness for C7 at a concrete input: a representable pair never makes
`insert` abort fatally (here it merely reports `full`). -/
theorem claim_C7_witness :
    ((Pair.to_bytes ⟨[1], [2]⟩).length ≤ tinyLeaf.max_pair_size) ∧
    Leaf.insert tinyLeaf 0 [1] [2] ≠ .assertViolation :=
  ⟨by decide, (claim_C7 tinyLeaf 0 [1] [2]).2 (by decide)⟩

/-- C8: the concrete scenario — inserting ("a","1"), ("c","3"), ("b","2")
in that arrival order, each at its insertion point, yields slot order
a, b, c; then searching "b" returns Ok(1) and searching "ab" returns
Err(1). -/
theorem claim_C8 :
    scenarioLeaf.num_pairs = 3 ∧
    Leaf.keys scenarioLeaf = [[97], [98], [99]] ∧
    Leaf.search_slot_id scenarioLeaf [98] = .ok 1 ∧
    Leaf.search_slot_id scenarioLeaf [97, 98] = .error 1 :=
  ⟨rfl, rfl, rfl, rfl⟩

/-- C9: frame property of the header setters — setting the prev link leaves
the next link, the pair count and every stored pair unchanged, and setting
the next link leaves the prev link, the pair count and every stored pair
unchanged. -/
theorem claim_C9 (l : Leaf) (id : Option Nat) :
    ((l.set_prev_page_id id).next_page_id = l.next_page_id ∧
      (l.set_prev_page_id id).num_pairs = l.num_pairs ∧
      (∀ i, (l.set_prev_page_id id).pair_at i = l.pair_at i)) ∧
    ((Leaf.st_next_page_id l id).prev_page_id = l.prev_page_id ∧
      (Leaf.st_next_page_id l id).num_pairs = l.num_pairs ∧
      (∀ i, (Leaf.st_next_page_id l id).pair_at i = l.pair_at i)) :=
  ⟨⟨rfl, rfl, fun _ => rfl⟩, ⟨rfl, rfl, fun _ => rfl⟩⟩

end RdbmsLeaf
